import Mathlib

/-!
Verification development for the tf-coreml SSD example notebook
(`examples/ssd_example.ipynb`).

The notebook is glue code: download a model archive, load a serialized graph,
prune it with TensorFlow's strip-unused tool, convert it with an external
converter, run both runtimes on one image and compare outputs with a small
numpy helper `max_relative_error`.  This file embeds the notebook's own logic
(the numpy comparison helper, the squeeze/transpose wiring, the tensor-name
mangling, the directory-creation guard and the sequential workflow shape)
shallowly in Lean, together with a model of the external pruner taken from
the specification, and proves the stated properties about them.

Numeric arrays are modelled as lists of rationals (`List ℚ`): the notebook's
arithmetic (`np.maximum`, `np.abs`, subtraction, division, `np.max`) is exact
real arithmetic at this level of abstraction.
-/

/-- Elementwise maximum of two equal-shaped arrays, modelling
`np.maximum(x, y)` from the notebook line `den = np.maximum(x,y)`. -/
def np_maximum (x y : List ℚ) : List ℚ := List.zipWith max x y

/-- Elementwise maximum of an array with a broadcast scalar, modelling
`np.maximum(den, 1)` from the notebook line `den = np.maximum(den,1)`. -/
def np_maximum_scalar (x : List ℚ) (c : ℚ) : List ℚ := x.map (fun a => max a c)

/-- Elementwise subtraction, modelling `x - y` on equal-shaped numpy arrays. -/
def np_sub (x y : List ℚ) : List ℚ := List.zipWith (fun a b => a - b) x y

/-- Elementwise absolute value, modelling `np.abs`. -/
def np_abs (x : List ℚ) : List ℚ := x.map (fun a => |a|)

/-- Elementwise division, modelling `/` on equal-shaped numpy arrays. -/
def np_div (x y : List ℚ) : List ℚ := List.zipWith (fun a b => a / b) x y

/-- Reduction maximum, modelling `np.max`.  On an empty array numpy raises
(`zero-size array to reduction operation maximum`), modelled as `none`. -/
def np_max : List ℚ → Option ℚ
  | [] => none
  | a :: t => some (t.foldl max a)

/-- The clamped denominator array computed inside `max_relative_error`:
`den = np.maximum(x,y); den = np.maximum(den,1)`. -/
def mre_den (x y : List ℚ) : List ℚ := np_maximum_scalar (np_maximum x y) 1

/-- The elementwise relative-error array `rel_err = (np.abs(x-y))/den`
computed inside `max_relative_error`. -/
def mre_rel_err (x y : List ℚ) : List ℚ :=
  np_div (np_abs (np_sub x y)) (mre_den x y)

/-- The notebook's comparison helper:
`def max_relative_error(x,y): den = np.maximum(x,y); den = np.maximum(den,1);
rel_err = (np.abs(x-y))/den; return np.max(rel_err)`. -/
def max_relative_error (x y : List ℚ) : Option ℚ :=
  np_max (mre_rel_err x y)

/-- The per-position relative error named by the specification:
at position `i`, `|x[i]-y[i]| / max(max(x[i],y[i]), 1)`. -/
def specRelErrAt (x y : List ℚ) (i : ℕ) : ℚ :=
  |x.getD i 0 - y.getD i 0| / max (max (x.getD i 0) (y.getD i 0)) 1

theorem le_foldl_max (t : List ℚ) : ∀ a : ℚ, a ≤ t.foldl max a := by
  induction t with
  | nil => intro a; exact le_refl a
  | cons b t ih => intro a; exact le_trans (le_max_left a b) (ih (max a b))

theorem mem_le_foldl_max (t : List ℚ) : ∀ a x : ℚ, x ∈ t → x ≤ t.foldl max a := by
  induction t with
  | nil => intro a x hx; cases hx
  | cons b t ih =>
    intro a x hx
    rcases List.mem_cons.mp hx with h | h
    · subst h; exact le_trans (le_max_right a x) (le_foldl_max t (max a x))
    · exact ih (max a b) x h

theorem foldl_max_mem (t : List ℚ) : ∀ a : ℚ, t.foldl max a = a ∨ t.foldl max a ∈ t := by
  induction t with
  | nil => intro a; exact Or.inl rfl
  | cons b t ih =>
    intro a
    rcases ih (max a b) with h | h
    · rcases max_choice a b with hm | hm
      · exact Or.inl (by simpa [List.foldl, hm] using h)
      · refine Or.inr ?_
        simp only [List.foldl]
        rw [h, hm]
        exact List.mem_cons_self b t
    · exact Or.inr (List.mem_cons_of_mem b (by simpa [List.foldl] using h))

theorem np_max_eq_some_of_ne_nil (l : List ℚ) (h : l ≠ []) : ∃ r, np_max l = some r := by
  cases l with
  | nil => exact absurd rfl h
  | cons a t => exact ⟨t.foldl max a, rfl⟩

theorem np_max_spec (l : List ℚ) (r : ℚ) (h : np_max l = some r) :
    r ∈ l ∧ ∀ x ∈ l, x ≤ r := by
  cases l with
  | nil => cases h
  | cons a t =>
    have hr : t.foldl max a = r := by simpa [np_max] using h
    constructor
    · rcases foldl_max_mem t a with h' | h'
      · rw [← hr, h']; exact List.mem_cons_self a t
      · rw [← hr]; exact List.mem_cons_of_mem a h'
    · intro x hx
      rcases List.mem_cons.mp hx with h' | h'
      · subst h'; rw [← hr]; exact le_foldl_max t x
      · rw [← hr]; exact mem_le_foldl_max t a x h'

theorem mre_rel_err_length (x y : List ℚ) :
    (mre_rel_err x y).length = min x.length y.length := by
  simp [mre_rel_err, np_div, np_abs, np_sub, mre_den, np_maximum_scalar, np_maximum,
    List.length_zipWith, List.length_map]

theorem mre_rel_err_getElem (x y : List ℚ) (i : ℕ) (h : i < (mre_rel_err x y).length) :
    (mre_rel_err x y)[i] = specRelErrAt x y i := by
  have hx : i < x.length := by
    rw [mre_rel_err_length] at h; omega
  have hy : i < y.length := by
    rw [mre_rel_err_length] at h; omega
  simp only [specRelErrAt]
  rw [List.getD_eq_getElem x 0 hx, List.getD_eq_getElem y 0 hy]
  simp only [mre_rel_err, np_div, np_abs, np_sub, mre_den, np_maximum_scalar, np_maximum]
  simp [List.getElem_zipWith, List.getElem_map]

theorem mre_some_spec (x y : List ℚ) (hlen : x.length = y.length) (hne : x ≠ []) :
    ∃ r, max_relative_error x y = some r ∧
      (∀ i, i < x.length → specRelErrAt x y i ≤ r) ∧
      (∃ i, i < x.length ∧ specRelErrAt x y i = r) := by
  have hlen' : (mre_rel_err x y).length = x.length := by
    rw [mre_rel_err_length, hlen, min_self]
  have hne' : mre_rel_err x y ≠ [] := by
    intro hc
    apply hne
    have : (mre_rel_err x y).length = 0 := by rw [hc]; rfl
    rw [hlen'] at this
    exact List.length_eq_zero.mp this
  obtain ⟨r, hr⟩ := np_max_eq_some_of_ne_nil (mre_rel_err x y) hne'
  obtain ⟨hmem, hub⟩ := np_max_spec (mre_rel_err x y) r hr
  refine ⟨r, hr, ?_, ?_⟩
  · intro i hi
    have hi' : i < (mre_rel_err x y).length := by rw [hlen']; exact hi
    have := hub ((mre_rel_err x y)[i]) (List.getElem_mem hi')
    rwa [mre_rel_err_getElem x y i hi'] at this
  · obtain ⟨i, hi, hv⟩ := List.mem_iff_getElem.mp hmem
    refine ⟨i, by rw [← hlen']; exact hi, ?_⟩
    rw [← mre_rel_err_getElem x y i hi]
    exact hv

theorem zipWith_comm_of_comm_q (f : ℚ → ℚ → ℚ) (hf : ∀ a b, f a b = f b a) :
    ∀ l₁ l₂ : List ℚ, List.zipWith f l₁ l₂ = List.zipWith f l₂ l₁ := by
  intro l₁
  induction l₁ with
  | nil => intro l₂; cases l₂ <;> rfl
  | cons a t ih =>
    intro l₂
    cases l₂ with
    | nil => rfl
    | cons b u =>
      show f a b :: List.zipWith f t u = f b a :: List.zipWith f u t
      rw [hf a b, ih u]

theorem mre_comm_aux (x y : List ℚ) :
    max_relative_error x y = max_relative_error y x := by
  have hA : np_abs (np_sub x y) = np_abs (np_sub y x) := by
    simp only [np_abs, np_sub, List.map_zipWith]
    exact zipWith_comm_of_comm_q _ (fun a b => by rw [abs_sub_comm]) x y
  have hB : np_maximum x y = np_maximum y x :=
    zipWith_comm_of_comm_q max max_comm x y
  simp [max_relative_error, mre_rel_err, mre_den, hA, hB]

theorem mem_zipWith_elim (f : ℚ → ℚ → ℚ) : ∀ (l₁ l₂ : List ℚ) (z : ℚ),
    z ∈ List.zipWith f l₁ l₂ → ∃ p q, p ∈ l₁ ∧ q ∈ l₂ ∧ z = f p q := by
  intro l₁
  induction l₁ with
  | nil => intro l₂ z hz; simp at hz
  | cons a t ih =>
    intro l₂ z hz
    cases l₂ with
    | nil => simp at hz
    | cons b u =>
      rw [List.zipWith_cons_cons] at hz
      rcases List.mem_cons.mp hz with h | h
      · exact ⟨a, b, List.mem_cons_self a t, List.mem_cons_self b u, h⟩
      · obtain ⟨p, q, hp, hq, hpq⟩ := ih u z h
        exact ⟨p, q, List.mem_cons_of_mem a hp, List.mem_cons_of_mem b hq, hpq⟩

theorem mre_rel_err_eq_absdiff : ∀ (x y : List ℚ),
    (∀ v ∈ x, v ≤ 1) → (∀ v ∈ y, v ≤ 1) →
    mre_rel_err x y = np_abs (np_sub x y) := by
  intro x
  induction x with
  | nil => intro y _ _; rfl
  | cons a t ih =>
    intro y hx hy
    cases y with
    | nil => rfl
    | cons b u =>
      have ha : a ≤ 1 := hx a (List.mem_cons_self a t)
      have hb : b ≤ 1 := hy b (List.mem_cons_self b u)
      have hden : max (max a b) 1 = 1 := max_eq_right (max_le ha hb)
      have ht : mre_rel_err t u = np_abs (np_sub t u) :=
        ih u (fun v hv => hx v (List.mem_cons_of_mem a hv))
          (fun v hv => hy v (List.mem_cons_of_mem b hv))
      show (|a - b|) / (max (max a b) 1) :: mre_rel_err t u
          = |a - b| :: np_abs (np_sub t u)
      rw [hden, div_one, ht]

/-- C1: for equal-shaped (and, as numpy requires for `np.max`, nonempty)
arrays `x` and `y`, `max_relative_error x y` returns exactly the maximum over
all element positions `i` of `|x[i]-y[i]| / max(max(x[i],y[i]), 1)`: the
returned value bounds every per-position relative error and is attained at
some position. -/
theorem max_relative_error_is_elementwise_max (x y : List ℚ)
    (hlen : x.length = y.length) (hne : x ≠ []) :
    ∃ r, max_relative_error x y = some r ∧
      (∀ i, i < x.length → specRelErrAt x y i ≤ r) ∧
      (∃ i, i < x.length ∧ specRelErrAt x y i = r) :=
  mre_some_spec x y hlen hne

/-- C1 witness: the theorem applied at the concrete pair `[2, 0]`, `[0, 1]`. -/
theorem max_relative_error_is_elementwise_max_witness :
    ∃ r, max_relative_error [2, 0] [0, 1] = some r ∧
      (∀ i, i < ([2, 0] : List ℚ).length → specRelErrAt [2, 0] [0, 1] i ≤ r) ∧
      (∃ i, i < ([2, 0] : List ℚ).length ∧ specRelErrAt [2, 0] [0, 1] i = r) :=
  max_relative_error_is_elementwise_max [2, 0] [0, 1] rfl (by simp)

/-- C2 (amended): `max_relative_error` is in fact symmetric: both the
numerator `np.abs(x-y)` and the clamped denominator `np.maximum(np.maximum(x,y),1)`
are symmetric in `x` and `y`, so `max_relative_error x y = max_relative_error y x`
for all arrays. -/
theorem max_relative_error_symmetric :
    ∀ x y : List ℚ, max_relative_error x y = max_relative_error y x :=
  mre_comm_aux

/-- C2 counterexample to the claim as stated: there is no pair of
equal-shaped arrays on which `max_relative_error` is asymmetric. -/
theorem max_relative_error_asymmetry_refuted :
    ¬ ∃ a b : List ℚ, a.length = b.length ∧
      max_relative_error a b ≠ max_relative_error b a := by
  rintro ⟨a, b, -, hne⟩
  exact hne (mre_comm_aux a b)

/-- C3: for equal-shaped arrays with all values nonnegative (and nonempty,
as numpy's `np.max` requires), if `a` equals `b` elementwise then
`max_relative_error a b` returns `0`. -/
theorem max_relative_error_eq_zero_of_eq (a b : List ℚ) (hlen : a.length = b.length)
    (hnonneg : ∀ v ∈ a, 0 ≤ v) (heq : a = b) (hne : a ≠ []) :
    max_relative_error a b = some 0 := by
  subst heq
  obtain ⟨r, hr, -, ⟨i, hi, hv⟩⟩ := mre_some_spec a a rfl hne
  have h0 : specRelErrAt a a i = 0 := by simp [specRelErrAt]
  rw [hr, ← hv, h0]

/-- C3 witness: the theorem applied at the concrete pair `[1, 2]`, `[1, 2]`. -/
theorem max_relative_error_eq_zero_of_eq_witness :
    max_relative_error [1, 2] [1, 2] = some 0 :=
  max_relative_error_eq_zero_of_eq [1, 2] [1, 2] rfl (by norm_num) rfl (by simp)

/-- C4: every element of the clamped denominator
`den = np.maximum(np.maximum(x,y), 1)` is at least `1`, hence nonzero, so the
elementwise division in `max_relative_error` never divides by zero. -/
theorem mre_den_ge_one (x y : List ℚ) (d : ℚ) (hd : d ∈ mre_den x y) :
    1 ≤ d ∧ d ≠ 0 := by
  have h1 : 1 ≤ d := by
    simp only [mre_den, np_maximum_scalar] at hd
    obtain ⟨a, -, ha⟩ := List.mem_map.mp hd
    rw [← ha]
    exact le_max_right a 1
  exact ⟨h1, (lt_of_lt_of_le zero_lt_one h1).ne'⟩

/-- C4 witness: the theorem applied to the denominator entry of the
concrete pair `[2]`, `[0]`. -/
theorem mre_den_ge_one_witness :
    (2 : ℚ) ∈ mre_den [2] [0] ∧ ((1 : ℚ) ≤ 2 ∧ (2 : ℚ) ≠ 0) :=
  ⟨by decide, mre_den_ge_one [2] [0] 2 (by decide)⟩

/-- C10: `max_relative_error` always returns a nonnegative value, and when
every element of both arrays is at most `1` (in particular when all elements
are negative) the clamped denominator is `1` at every position, so the result
degenerates to the maximum absolute difference `np.max(np.abs(x-y))`. -/
theorem max_relative_error_nonneg_and_degenerate (x y : List ℚ)
    (hlen : x.length = y.length) (hne : x ≠ []) :
    ∃ r, max_relative_error x y = some r ∧ 0 ≤ r ∧
      ((∀ v ∈ x, v ≤ 1) → (∀ v ∈ y, v ≤ 1) →
        (∀ d ∈ mre_den x y, d = 1) ∧
        max_relative_error x y = np_max (np_abs (np_sub x y))) := by
  obtain ⟨r, hr, hub, ⟨i, hi, hv⟩⟩ := mre_some_spec x y hlen hne
  refine ⟨r, hr, ?_, ?_⟩
  · rw [← hv]
    unfold specRelErrAt
    apply div_nonneg (abs_nonneg _)
    have h1 : (1 : ℚ) ≤ max (max (x.getD i 0) (y.getD i 0)) 1 := le_max_right _ _
    linarith
  · intro hx hy
    constructor
    · intro d hd
      simp only [mre_den, np_maximum_scalar] at hd
      obtain ⟨a, ha, hda⟩ := List.mem_map.mp hd
      obtain ⟨p, q, hp, hq, hpq⟩ := mem_zipWith_elim max x y a ha
      rw [← hda, hpq]
      exact max_eq_right (max_le (hx p hp) (hy q hq))
    · show np_max (mre_rel_err x y) = np_max (np_abs (np_sub x y))
      rw [mre_rel_err_eq_absdiff x y hx hy]

/-- C10 witness: the theorem applied at the concrete all-negative pair
`[-2]`, `[-1]`. -/
theorem max_relative_error_nonneg_and_degenerate_witness :
    ∃ r, max_relative_error [-2] [-1] = some r ∧ 0 ≤ r ∧
      ((∀ v ∈ ([-2] : List ℚ), v ≤ 1) → (∀ v ∈ ([-1] : List ℚ), v ≤ 1) →
        (∀ d ∈ mre_den [-2] [-1], d = 1) ∧
        max_relative_error [-2] [-1] = np_max (np_abs (np_sub [-2] [-1]))) :=
  max_relative_error_nonneg_and_degenerate [-2] [-1] rfl (by simp)

/-- A numpy ndarray in C (row-major) order: a shape and the flat data. -/
structure NDArray where
  shape : List ℕ
  data : List ℚ
deriving DecidableEq

/-- Modelling `arr.squeeze()`: all axes of extent 1 are removed; for a
C-contiguous array the flat data is unchanged. -/
def NDArray.squeeze (a : NDArray) : NDArray :=
  { shape := a.shape.filter (fun d => d != 1), data := a.data }

/-- The stride of axis 0 for a 2-d array: the extent of axis 1. -/
def NDArray.cols (a : NDArray) : ℕ := a.shape.getD 1 0

/-- Row-major element access for a 2-d array. -/
def NDArray.at2 (a : NDArray) (i j : ℕ) : ℚ := a.data.getD (i * a.cols + j) 0

/-- Modelling `np.transpose(arr, (1,0))`: defined on 2-d arrays only (numpy
raises `ValueError: axes don't match array` otherwise, modelled as `none`).
A shape `[r, c]` becomes `[c, r]` and flat position `i*r + j` of the result
reads flat position `j*c + i` of the argument. -/
def np_transpose10 (a : NDArray) : Option NDArray :=
  match a.shape with
  | [r, c] =>
    some { shape := [c, r],
           data := (List.range (c * r)).map
             (fun idx => a.data.getD ((idx % r) * c + idx / r) 0) }
  | _ => none

/-- The notebook's validation wiring, common form of `rel_error_box` and
`rel_error_score`:
`max_relative_error(coreml_out.squeeze(), np.transpose(tf_out.squeeze(),(1,0)))`. -/
def rel_error_output (coreml_out tf_out : NDArray) : Option ℚ :=
  match np_transpose10 tf_out.squeeze with
  | some t => max_relative_error coreml_out.squeeze.data t.data
  | none => none

theorem range_map_getD (n : ℕ) (f : ℕ → ℚ) (m : ℕ) (hm : m < n) :
    ((List.range n).map f).getD m 0 = f m := by
  rw [List.getD_eq_getElem?_getD, List.getElem?_map, List.getElem?_range hm]
  rfl

/-- C5: before comparison, the (squeezed) TensorFlow output is transposed
with axis order `(1,0)`; the transposed array has exactly the squeezed
CoreML output's shape, its `(i,j)` element is the TF output's `(j,i)`
element, and the validator passes the squeezed CoreML data together with
this transposed TF data to `max_relative_error`. -/
theorem tf_output_transposed_for_comparison (c t : NDArray) (r k : ℕ)
    (ht : t.squeeze.shape = [r, k]) (hc : c.squeeze.shape = [k, r]) :
    ∃ t2, np_transpose10 t.squeeze = some t2 ∧
      t2.shape = c.squeeze.shape ∧
      t2.data.length = k * r ∧
      (∀ i j, i < k → j < r → t2.at2 i j = t.squeeze.at2 j i) ∧
      rel_error_output c t = max_relative_error c.squeeze.data t2.data := by
  have htrans : np_transpose10 t.squeeze =
      some { shape := [k, r],
             data := (List.range (k * r)).map
               (fun idx => t.squeeze.data.getD ((idx % r) * k + idx / r) 0) } := by
    unfold np_transpose10
    rw [ht]
  refine ⟨_, htrans, ?_, ?_, ?_, ?_⟩
  · rw [hc]
  · simp
  · intro i j hi hj
    have hlt : i * r + j < k * r := by
      calc i * r + j < i * r + r := by omega
        _ = (i + 1) * r := by ring
        _ ≤ k * r := Nat.mul_le_mul_right r (by omega)
    have hmod : (i * r + j) % r = j := by
      rw [Nat.add_comm, Nat.add_mul_mod_self_right, Nat.mod_eq_of_lt hj]
    have hdiv : (i * r + j) / r = i := by
      rw [Nat.add_comm, Nat.add_mul_div_right j i (show 0 < r by omega),
        Nat.div_eq_of_lt hj]
      omega
    have hcols2 : t.squeeze.cols = k := by
      unfold NDArray.cols
      rw [ht]
      rfl
    unfold NDArray.at2
    have hcols1 : NDArray.cols
        { shape := [k, r],
          data := (List.range (k * r)).map
            (fun idx => t.squeeze.data.getD ((idx % r) * k + idx / r) 0) } = r := rfl
    rw [hcols1]
    show ((List.range (k * r)).map
        (fun idx => t.squeeze.data.getD ((idx % r) * k + idx / r) 0)).getD (i * r + j) 0
      = t.squeeze.data.getD (j * t.squeeze.cols + i) 0
    rw [range_map_getD _ _ _ hlt, hmod, hdiv, hcols2]
  · show (match np_transpose10 t.squeeze with
      | some t2 => max_relative_error c.squeeze.data t2.data
      | none => none) = _
    rw [htrans]

/-- C5 witness: the theorem applied to a concrete CoreML-shaped array
(shape `[1,1,3,2]`) and TF-shaped array (shape `[1,2,3]`). -/
theorem tf_output_transposed_for_comparison_witness :
    ∃ t2, np_transpose10 (NDArray.mk [1, 2, 3] [0, 1, 2, 3, 4, 5]).squeeze = some t2 ∧
      t2.shape = (NDArray.mk [1, 1, 3, 2] [10, 11, 12, 13, 14, 15]).squeeze.shape ∧
      t2.data.length = 3 * 2 ∧
      (∀ i j, i < 3 → j < 2 →
        t2.at2 i j = (NDArray.mk [1, 2, 3] [0, 1, 2, 3, 4, 5]).squeeze.at2 j i) ∧
      rel_error_output (NDArray.mk [1, 1, 3, 2] [10, 11, 12, 13, 14, 15])
          (NDArray.mk [1, 2, 3] [0, 1, 2, 3, 4, 5])
        = max_relative_error
            (NDArray.mk [1, 1, 3, 2] [10, 11, 12, 13, 14, 15]).squeeze.data t2.data :=
  tf_output_transposed_for_comparison
    (NDArray.mk [1, 1, 3, 2] [10, 11, 12, 13, 14, 15])
    (NDArray.mk [1, 2, 3] [0, 1, 2, 3, 4, 5]) 2 3 rfl rfl

/-- The notebook's acquisition guard, with the filesystem modelled as the
list of existing paths:
`if not os.path.exists(example_dir): os.makedirs(example_dir)`.
Returns the filesystem afterwards and whether `os.makedirs` was invoked. -/
def acquire_dir (fs : List String) (dir : String) : List String × Bool :=
  if dir ∈ fs then (fs, false) else (dir :: fs, true)

/-- C7: the destination directory is created if and only if it is absent:
when absent, `os.makedirs` is invoked and the directory exists afterwards;
when present, `os.makedirs` is not invoked and the filesystem is unchanged. -/
theorem acquire_dir_creates_iff_absent (fs : List String) (dir : String) :
    (dir ∉ fs → (acquire_dir fs dir).2 = true ∧ dir ∈ (acquire_dir fs dir).1) ∧
    (dir ∈ fs → (acquire_dir fs dir).2 = false ∧ (acquire_dir fs dir).1 = fs) := by
  by_cases h : dir ∈ fs
  · refine ⟨fun hn => absurd h hn, fun _ => ?_⟩
    simp [acquire_dir, h]
  · refine ⟨fun _ => ?_, fun hm => absurd hm h⟩
    simp [acquire_dir, h]

/-- C7 witness: the theorem applied to an empty filesystem (directory absent)
and to a filesystem already containing the directory. -/
theorem acquire_dir_creates_iff_absent_witness :
    ((acquire_dir [] "/tmp/tfcoreml_ssd_example/").2 = true ∧
      "/tmp/tfcoreml_ssd_example/" ∈ (acquire_dir [] "/tmp/tfcoreml_ssd_example/").1) ∧
    ((acquire_dir ["/tmp/tfcoreml_ssd_example/"] "/tmp/tfcoreml_ssd_example/").2 = false ∧
      (acquire_dir ["/tmp/tfcoreml_ssd_example/"] "/tmp/tfcoreml_ssd_example/").1
        = ["/tmp/tfcoreml_ssd_example/"]) :=
  ⟨(acquire_dir_creates_iff_absent [] "/tmp/tfcoreml_ssd_example/").1 (by simp),
   (acquire_dir_creates_iff_absent ["/tmp/tfcoreml_ssd_example/"]
     "/tmp/tfcoreml_ssd_example/").2 (by simp)⟩

/-- The notebook's five sequential stages (download, graph parsing, pruning,
conversion, prediction) composed with Python's uncaught-exception semantics:
a stage runs only when every earlier stage succeeded, and the script has no
try/except, so a raised error is returned as-is. -/
def run_workflow {ε α β γ δ ρ : Type} (download : Except ε α)
    (parse : α → Except ε β) (prune : β → Except ε γ)
    (convert : γ → Except ε δ) (predict : δ → Except ε ρ) : Except ε ρ :=
  match download with
  | .error e => .error e
  | .ok a =>
    match parse a with
    | .error e => .error e
    | .ok b =>
      match prune b with
      | .error e => .error e
      | .ok cg =>
        match convert cg with
        | .error e => .error e
        | .ok d => predict d

/-- C8: a failure in any stage propagates unchanged as the result of the
whole workflow; since the result is then determined without consulting the
remaining stage functions, no later stage executes after a failure. -/
theorem workflow_propagates_failures {ε α β γ δ ρ : Type} (download : Except ε α)
    (parse : α → Except ε β) (prune : β → Except ε γ)
    (convert : γ → Except ε δ) (predict : δ → Except ε ρ) (e : ε) :
    (download = .error e →
      run_workflow download parse prune convert predict = .error e) ∧
    (∀ a, download = .ok a → parse a = .error e →
      run_workflow download parse prune convert predict = .error e) ∧
    (∀ a b, download = .ok a → parse a = .ok b → prune b = .error e →
      run_workflow download parse prune convert predict = .error e) ∧
    (∀ a b cg, download = .ok a → parse a = .ok b → prune b = .ok cg →
      convert cg = .error e →
      run_workflow download parse prune convert predict = .error e) ∧
    (∀ a b cg d, download = .ok a → parse a = .ok b → prune b = .ok cg →
      convert cg = .ok d → predict d = .error e →
      run_workflow download parse prune convert predict = .error e) := by
  refine ⟨?_, ?_, ?_, ?_, ?_⟩
  · intro h; simp [run_workflow, h]
  · intro a h1 h2; simp [run_workflow, h1, h2]
  · intro a b h1 h2 h3; simp [run_workflow, h1, h2, h3]
  · intro a b cg h1 h2 h3 h4; simp [run_workflow, h1, h2, h3, h4]
  · intro a b cg d h1 h2 h3 h4 h5; simp [run_workflow, h1, h2, h3, h4, h5]

/-- C8 witness: the theorem applied to a concrete workflow whose pruning
stage fails with error code `5`: the workflow returns exactly that error. -/
theorem workflow_propagates_failures_witness :
    run_workflow (Except.ok 0) (fun _ : ℕ => Except.ok 1)
      (fun _ : ℕ => (Except.error 5 : Except ℕ ℕ))
      (fun _ : ℕ => Except.ok 3) (fun _ : ℕ => Except.ok 4) = Except.error 5 :=
  (workflow_propagates_failures (Except.ok 0) (fun _ : ℕ => Except.ok 1)
      (fun _ : ℕ => (Except.error 5 : Except ℕ ℕ))
      (fun _ : ℕ => Except.ok 3) (fun _ : ℕ => Except.ok 4) 5).2.2.1 0 1 rfl rfl rfl

/-- Python's `s.replace(old, new)` for a single-character pattern, on the
character list of the string. -/
def pyReplaceChar (s : List Char) (old : Char) (new : List Char) : List Char :=
  s.flatMap (fun ch => if ch = old then new else [ch])

/-- The notebook's tensor-name mangling, applied to the input name:
`coreml_input_name = tf_input_name.replace(':', '__').replace('/', '__')`. -/
def coreml_input_name (tf_name : List Char) : List Char :=
  pyReplaceChar (pyReplaceChar tf_name ':' ['_', '_']) '/' ['_', '_']

/-- The notebook's tensor-name mangling, applied to each output name:
`[output_name.replace(':', '__').replace('/', '__') for output_name in tf_output_names]`. -/
def coreml_output_names (tf_names : List (List Char)) : List (List Char) :=
  tf_names.map coreml_input_name

/-- The specification's description of the transformation: every ':' and
every '/' is replaced (simultaneously) by "__". -/
def spec_replace_both (s : List Char) : List Char :=
  s.flatMap (fun ch => if ch = ':' ∨ ch = '/' then ['_', '_'] else [ch])

theorem coreml_input_name_eq_spec (s : List Char) :
    coreml_input_name s = spec_replace_both s := by
  induction s with
  | nil => rfl
  | cons ch t ih =>
    have hstep : coreml_input_name (ch :: t)
        = pyReplaceChar (if ch = ':' then ['_', '_'] else [ch]) '/' ['_', '_']
          ++ coreml_input_name t := by
      simp only [coreml_input_name, pyReplaceChar, List.flatMap_cons, List.flatMap_append]
    have hspec : spec_replace_both (ch :: t)
        = (if ch = ':' ∨ ch = '/' then ['_', '_'] else [ch]) ++ spec_replace_both t := by
      simp only [spec_replace_both, List.flatMap_cons]
    rw [hstep, hspec, ih]
    by_cases h1 : ch = ':'
    · subst h1
      rw [if_pos rfl, if_pos (Or.inl rfl)]
      rfl
    · by_cases h2 : ch = '/'
      · subst h2
        rw [if_neg h1, if_pos (Or.inr rfl)]
        rfl
      · rw [if_neg h1, if_neg (by tauto)]
        have hkeep : pyReplaceChar [ch] '/' ['_', '_'] = [ch] := by
          simp [pyReplaceChar, h2]
        rw [hkeep]

/-- C9: the CoreML feature name used for prediction is the TensorFlow tensor
name with every ':' and every '/' replaced by "__", and this same
transformation is applied to the input name and to each output name. -/
theorem coreml_names_replace_colon_and_slash (tfIn : List Char)
    (tfOuts : List (List Char)) :
    coreml_input_name tfIn = spec_replace_both tfIn ∧
    coreml_output_names tfOuts = tfOuts.map spec_replace_both := by
  refine ⟨coreml_input_name_eq_spec tfIn, ?_⟩
  unfold coreml_output_names
  exact List.map_congr_left (fun s _ => coreml_input_name_eq_spec s)

/-- Modelled from the spec: a computation-graph node, following section 3
("directed acyclic structure of named nodes") of the specification.  The graph
pruner `strip_unused_lib.strip_unused` is a TensorFlow library function whose
code is not part of this repository; only its call site is. -/
structure Node where
  name : String
  op : String
  inputs : List String
  attrType : ℕ
deriving DecidableEq

/-- Look a node up by name (node names are the graph's stable identifiers). -/
def findNode (g : List Node) (n : String) : Option Node :=
  g.find? (fun nd => nd.name == n)

/-- Modelled from the spec: the names a node depends on during the backward
reachability pass of section 4.3.  A declared input node is a traversal
boundary (it is rewritten to a placeholder, which has no inputs); a name
without a node in the graph contributes nothing. -/
def inputsOf (g : List Node) (inputNames : List String) (n : String) : List String :=
  if n ∈ inputNames then []
  else
    match findNode g n with
    | some nd => nd.inputs
    | none => []

/-- One step of backward reachability: add the inputs of every name reached
so far. -/
def reachStep (g : List Node) (inputNames : List String) (s : Finset String) :
    Finset String :=
  s ∪ s.biUnion (fun n => (inputsOf g inputNames n).toFinset)

/-- All names backward reachability can ever visit: the declared output
names and every name occurring as an input of some node. -/
def nameUniverse (g : List Node) (outputNames : List String) : Finset String :=
  outputNames.toFinset ∪ (g.flatMap (fun nd => nd.inputs)).toFinset

/-- Modelled from the spec: the set of node names "reachable backward from
outputs to inputs" (section 4.3), computed by iterating the step function
until it stabilises (one more iteration than the universe has names suffices). -/
def reachableNames (g : List Node) (inputNames outputNames : List String) :
    Finset String :=
  (reachStep g inputNames)^[(nameUniverse g outputNames).card + 1]
    outputNames.toFinset

/-- Modelled from the spec: "rewrite input nodes to a declared placeholder
type" — the node keeps its name, becomes a placeholder operation with the
declared type, and loses its inputs. -/
def toPlaceholder (enum : ℕ) (nd : Node) : Node :=
  { name := nd.name, op := "Placeholder", inputs := [], attrType := enum }

/-- Rewrite applied to each retained node: declared input nodes become
placeholders, all other nodes are kept as they are. -/
def rewriteInput (inputNames : List String) (enum : ℕ) (nd : Node) : Node :=
  if nd.name ∈ inputNames then toPlaceholder enum nd else nd

/-- Modelled from the spec: `strip_unused_lib.strip_unused` — "compute the
minimal node set reachable backward from outputs to inputs, rewrite input
nodes to a declared placeholder type, and return a new graph containing only
that reachable subgraph" (section 4.3). -/
def strip_unused (g : List Node) (inputNames outputNames : List String)
    (enum : ℕ) : List Node :=
  (g.filter (fun nd => decide (nd.name ∈ reachableNames g inputNames outputNames))).map
    (rewriteInput inputNames enum)

theorem rewriteInput_name (I : List String) (enum : ℕ) (nd : Node) :
    (rewriteInput I enum nd).name = nd.name := by
  unfold rewriteInput toPlaceholder
  split <;> rfl

theorem reachStep_infl (g : List Node) (I : List String) (s : Finset String) :
    s ⊆ reachStep g I s :=
  Finset.subset_union_left

theorem inputsOf_subset_univ (g : List Node) (I : List String) (n : String)
    (O : List String) :
    (inputsOf g I n).toFinset ⊆ nameUniverse g O := by
  intro m hm
  rw [List.mem_toFinset] at hm
  unfold inputsOf at hm
  by_cases hI : n ∈ I
  · rw [if_pos hI] at hm
    cases hm
  · rw [if_neg hI] at hm
    cases hfind : findNode g n with
    | none => rw [hfind] at hm; cases hm
    | some nd =>
      rw [hfind] at hm
      have hnd : nd ∈ g := List.mem_of_find?_eq_some hfind
      apply Finset.mem_union_right
      rw [List.mem_toFinset, List.mem_flatMap]
      exact ⟨nd, hnd, hm⟩

theorem reachStep_subset_univ (g : List Node) (I O : List String)
    (s : Finset String) (hs : s ⊆ nameUniverse g O) :
    reachStep g I s ⊆ nameUniverse g O := by
  unfold reachStep
  apply Finset.union_subset hs
  intro m hm
  rw [Finset.mem_biUnion] at hm
  obtain ⟨n, -, hm⟩ := hm
  exact inputsOf_subset_univ g I n O hm

theorem iterate_subset_univ (g : List Node) (I O : List String) :
    ∀ k, (reachStep g I)^[k] O.toFinset ⊆ nameUniverse g O := by
  intro k
  induction k with
  | zero =>
    rw [Function.iterate_zero_apply]
    exact Finset.subset_union_left
  | succ n ih =>
    rw [Function.iterate_succ_apply']
    exact reachStep_subset_univ g I O _ ih

theorem reachStep_fixed (g : List Node) (I O : List String) :
    reachStep g I (reachableNames g I O) = reachableNames g I O := by
  set f := reachStep g I with hf
  set s0 := O.toFinset with hs0
  set U := nameUniverse g O with hU
  set N := U.card + 1 with hN
  have hinfl : ∀ s, s ⊆ f s := reachStep_infl g I
  have hbound : ∀ k, f^[k] s0 ⊆ U := iterate_subset_univ g I O
  have hgrow : ∀ k : ℕ, (∀ j, j < k → f^[j + 1] s0 ≠ f^[j] s0) → k ≤ (f^[k] s0).card := by
    intro k
    induction k with
    | zero => intro _; exact Nat.zero_le _
    | succ n ih =>
      intro h
      have h1 : n ≤ (f^[n] s0).card := ih (fun j hj => h j (Nat.lt_succ_of_lt hj))
      have hss : f^[n] s0 ⊂ f^[n + 1] s0 := by
        have hsub : f^[n] s0 ⊆ f^[n + 1] s0 := by
          rw [Function.iterate_succ_apply']
          exact hinfl _
        refine hsub.ssubset_of_ne ?_
        intro hEq
        exact h n (Nat.lt_succ_self n) hEq.symm
      have h2 := Finset.card_lt_card hss
      omega
  have hex : ∃ j, j < N ∧ f^[j + 1] s0 = f^[j] s0 := by
    by_contra hc
    push_neg at hc
    have h1 := hgrow N (fun j hj => hc j hj)
    have h2 := Finset.card_le_card (hbound N)
    omega
  obtain ⟨j, hj, hfix⟩ := hex
  have hstab : ∀ m, f^[j + m] s0 = f^[j] s0 := by
    intro m
    induction m with
    | zero => rfl
    | succ n ih =>
      have h1 : j + (n + 1) = (j + n) + 1 := by omega
      rw [h1, Function.iterate_succ_apply', ih, ← Function.iterate_succ_apply' f j s0]
      exact hfix
  have hNj : f^[N] s0 = f^[j] s0 := by
    have h1 := hstab (N - j)
    rw [show j + (N - j) = N from by omega] at h1
    exact h1
  show f (f^[N] s0) = f^[N] s0
  rw [hNj, ← Function.iterate_succ_apply' f j s0]
  exact hfix

theorem mem_reachStep (g : List Node) (I : List String) (s : Finset String)
    (n : String) :
    n ∈ reachStep g I s ↔ n ∈ s ∨ ∃ m ∈ s, n ∈ inputsOf g I m := by
  simp [reachStep, Finset.mem_union, Finset.mem_biUnion, List.mem_toFinset]

theorem iterate_chain (g : List Node) (I : List String) (s0 : Finset String) :
    ∀ k, (reachStep g I)^[k] s0 ⊆ (reachStep g I)^[k + 1] s0 := by
  intro k
  rw [Function.iterate_succ_apply']
  exact reachStep_infl g I _

theorem iterate_mono_count (g : List Node) (I : List String) (s0 : Finset String)
    (k₁ k₂ : ℕ) (h : k₁ ≤ k₂) :
    (reachStep g I)^[k₁] s0 ⊆ (reachStep g I)^[k₂] s0 := by
  induction h with
  | refl => exact subset_rfl
  | step h2 ih => exact ih.trans (iterate_chain g I s0 _)

theorem iterate_subset_reachable (g : List Node) (I O : List String) :
    ∀ k, (reachStep g I)^[k] O.toFinset ⊆ reachableNames g I O := by
  intro k
  set N := (nameUniverse g O).card + 1 with hN
  by_cases hk : k ≤ N
  · exact iterate_mono_count g I O.toFinset k N hk
  · have hge : ∀ m, (reachStep g I)^[N + m] O.toFinset = reachableNames g I O := by
      intro m
      induction m with
      | zero => rfl
      | succ n ih =>
        have h1 : N + (n + 1) = (N + n) + 1 := by omega
        rw [h1, Function.iterate_succ_apply', ih]
        exact reachStep_fixed g I O
    have h1 := hge (k - N)
    rw [show N + (k - N) = k from by omega] at h1
    rw [h1]

theorem outputs_subset_reachable (g : List Node) (I O : List String) :
    O.toFinset ⊆ reachableNames g I O :=
  iterate_subset_reachable g I O 0

theorem reachable_closed (g : List Node) (I O : List String) (m n : String)
    (hm : m ∈ reachableNames g I O) (hn : n ∈ inputsOf g I m) :
    n ∈ reachableNames g I O := by
  have h1 := (mem_reachStep g I (reachableNames g I O) n).mpr (Or.inr ⟨m, hm, hn⟩)
  rwa [reachStep_fixed g I O] at h1

theorem reachable_induction (g : List Node) (I O : List String) (P : String → Prop)
    (hO : ∀ n ∈ O, P n)
    (hstep : ∀ m n, P m → m ∈ reachableNames g I O → n ∈ inputsOf g I m → P n) :
    ∀ n ∈ reachableNames g I O, P n := by
  have haux : ∀ k, ∀ n ∈ (reachStep g I)^[k] O.toFinset, P n := by
    intro k
    induction k with
    | zero =>
      intro n hn
      rw [Function.iterate_zero_apply, List.mem_toFinset] at hn
      exact hO n hn
    | succ m ih =>
      intro n hn
      rw [Function.iterate_succ_apply'] at hn
      rcases (mem_reachStep g I _ n).mp hn with h | ⟨m', hm', hinp⟩
      · exact ih n h
      · exact hstep m' n (ih m' hm') (iterate_subset_reachable g I O m hm') hinp
  exact haux ((nameUniverse g O).card + 1)

theorem findNode_filter_map (g : List Node) (r : Finset String) (rwf : Node → Node)
    (hname : ∀ nd, (rwf nd).name = nd.name) (m : String) (hm : m ∈ r) :
    findNode ((g.filter (fun nd => decide (nd.name ∈ r))).map rwf) m
      = Option.map rwf (findNode g m) := by
  induction g with
  | nil => rfl
  | cons nd t ih =>
    unfold findNode at ih ⊢
    by_cases hkeep : nd.name ∈ r
    · by_cases heq : nd.name = m
      · have hb2 : (nd.name == m) = true := beq_iff_eq.mpr heq
        have hb1 : ((rwf nd).name == m) = true := by rw [hname]; exact hb2
        simp [List.filter_cons, hkeep, List.find?_cons, hb1, hb2]
      · have hb2 : (nd.name == m) = false := beq_eq_false_iff_ne.mpr heq
        have hb1 : ((rwf nd).name == m) = false := by rw [hname]; exact hb2
        simpa [List.filter_cons, hkeep, List.find?_cons, hb1, hb2] using ih
    · have heq : ¬ nd.name = m := by
        intro hc
        apply hkeep
        rw [hc]
        exact hm
      have hb2 : (nd.name == m) = false := beq_eq_false_iff_ne.mpr heq
      simpa [List.filter_cons, hkeep, List.find?_cons, hb2] using ih

theorem inputsOf_strip (g : List Node) (I O : List String) (enum : ℕ) (m : String)
    (hm : m ∈ reachableNames g I O) :
    inputsOf (strip_unused g I O enum) I m = inputsOf g I m := by
  unfold inputsOf
  by_cases hI : m ∈ I
  · rw [if_pos hI, if_pos hI]
  · rw [if_neg hI, if_neg hI]
    unfold strip_unused
    rw [findNode_filter_map g _ (rewriteInput I enum) (rewriteInput_name I enum) m hm]
    cases hfind : findNode g m with
    | none => rfl
    | some nd =>
      have hndm : nd.name = m := by
        have h1 := List.find?_some hfind
        rwa [beq_iff_eq] at h1
      show (rewriteInput I enum nd).inputs = nd.inputs
      unfold rewriteInput
      rw [if_neg (by rw [hndm]; exact hI)]

theorem reachable_strip (g : List Node) (I O : List String) (enum : ℕ) :
    reachableNames (strip_unused g I O enum) I O = reachableNames g I O := by
  apply Finset.Subset.antisymm
  · intro n hn
    refine reachable_induction (strip_unused g I O enum) I O
      (fun x => x ∈ reachableNames g I O) ?_ ?_ n hn
    · intro x hx
      exact outputs_subset_reachable g I O (List.mem_toFinset.mpr hx)
    · intro m x hPm _ hinp
      rw [inputsOf_strip g I O enum m hPm] at hinp
      exact reachable_closed g I O m x hPm hinp
  · intro n hn
    refine reachable_induction g I O
      (fun x => x ∈ reachableNames (strip_unused g I O enum) I O) ?_ ?_ n hn
    · intro x hx
      exact outputs_subset_reachable _ I O (List.mem_toFinset.mpr hx)
    · intro m x hPm hm hinp
      rw [← inputsOf_strip g I O enum m hm] at hinp
      exact reachable_closed _ I O m x hPm hinp

theorem rewriteInput_idem (I : List String) (enum : ℕ) (nd : Node) :
    rewriteInput I enum (rewriteInput I enum nd) = rewriteInput I enum nd := by
  unfold rewriteInput
  by_cases h : nd.name ∈ I
  · rw [if_pos h, if_pos (show (toPlaceholder enum nd).name ∈ I from h)]
    rfl
  · rw [if_neg h, if_neg h]

/-- C6: graph pruning is idempotent.  Pruning an already-pruned graph with
the same input and output node names returns the pruned graph itself (hence
in particular an identical node set): every retained node is still reachable
in the pruned graph, and rewriting an input node to a placeholder twice gives
the same placeholder. -/
theorem strip_unused_idempotent (g : List Node) (I O : List String) (enum : ℕ) :
    strip_unused (strip_unused g I O enum) I O enum = strip_unused g I O enum := by
  have hall : ∀ nd ∈ strip_unused g I O enum, nd.name ∈ reachableNames g I O := by
    intro nd hnd
    unfold strip_unused at hnd
    rw [List.mem_map] at hnd
    obtain ⟨nd0, hnd0, hrw⟩ := hnd
    rw [List.mem_filter] at hnd0
    have h1 := of_decide_eq_true hnd0.2
    rw [← hrw, rewriteInput_name]
    exact h1
  have h1 : (strip_unused g I O enum).filter
      (fun nd => decide (nd.name ∈ reachableNames (strip_unused g I O enum) I O))
      = strip_unused g I O enum := by
    simp only [reachable_strip g I O enum]
    rw [List.filter_eq_self]
    intro nd hnd
    exact decide_eq_true (hall nd hnd)
  show ((strip_unused g I O enum).filter
      (fun nd => decide (nd.name ∈ reachableNames (strip_unused g I O enum) I O))).map
      (rewriteInput I enum) = strip_unused g I O enum
  rw [h1]
  show ((g.filter (fun nd => decide (nd.name ∈ reachableNames g I O))).map
      (rewriteInput I enum)).map (rewriteInput I enum)
    = (g.filter (fun nd => decide (nd.name ∈ reachableNames g I O))).map
      (rewriteInput I enum)
  rw [List.map_map]
  exact List.map_congr_left (fun a _ => rewriteInput_idem I enum a)
